import Mathlib

/-!
Shallow embedding of the in-memory core of the effort activity tracker:
the Activity record and its derived ordering (src/app/activity.rs), the
per-day sorted container ActivityVec (src/src/app/state/activity_vec.rs and
the superseded src/src/app/activity_vec.rs revision used by History), the
date-keyed State (src/app/state.rs), the undo/redo History
(src/app/history.rs), and the App facade operations on the selection
cursor, clipboard and id counter (src/app.rs).

Modelling conventions:
  - calendar dates and times of day are natural numbers (the `time` crate's
    `Date` and `Time` are totally ordered values; arithmetic is only used by
    `paste`, where `Time + Duration` wraps around midnight, embedded as
    arithmetic modulo the number of minutes in a day);
  - Rust `String` fields are byte lists, with Rust's byte-wise lexicographic
    derived `Ord`;
  - `BTreeMap<Reverse<Date>, ActivityVec>` is an association list sorted by
    strictly descending date (the map's iteration order);
  - `Vec` push/pop on the History stacks append and remove at the end;
  - panics (`expect`, `unwrap`) make the embedded operation return `none`;
  - `sort`/`sort_unstable` are embedded as insertion sort: the derived
    `Ord` on Activity is antisymmetric (compare = eq implies equality),
    so every comparison sort produces the same, unique sorted permutation.
-/

namespace Effort

/-- Calendar dates, abstracted as day numbers (time::Date is totally ordered). -/
abbrev Date := Nat

/-- Times of day, as minutes since midnight (time::Time is totally ordered). -/
abbrev Time := Nat

/-- Rust String contents as byte lists; derived Ord on String is byte-wise
lexicographic. -/
abbrev Str := List Nat

/-- Activity ids: ActivityId wraps a usize drawn from a monotonic counter
(src/app/activity.rs lines 290-299). -/
abbrev ActivityId := Nat

/-- One logged activity (src/app/activity.rs, struct Activity, lines 301-312).
The PhantomData marker field is omitted: it carries no data and always
compares equal. -/
structure Activity where
  day : Date
  start_time : Time
  end_time : Option Time
  action : Str
  issue : Str
  id : ActivityId
deriving DecidableEq, Repr

instance : Inhabited Activity := ⟨⟨0, 0, none, [], [], 0⟩⟩

/-- Rust derived Ord on Option: None sorts before Some. -/
def optCmp (c : α → α → Ordering) : Option α → Option α → Ordering
  | none, none => .eq
  | none, some _ => .lt
  | some _, none => .gt
  | some a, some b => c a b

/-- Rust derived Ord on sequences: element-wise lexicographic, a strict
prefix sorts first. -/
def listCmp (c : α → α → Ordering) : List α → List α → Ordering
  | [], [] => .eq
  | [], _ :: _ => .lt
  | _ :: _, [] => .gt
  | x :: xs, y :: ys => (c x y).then (listCmp c xs ys)

/-- Rust derived Ord on Activity (src/app/activity.rs lines 301-312): the
fields are compared in declaration order
(day, start_time, end_time, action, issue, id). -/
def Activity.cmp (a b : Activity) : Ordering :=
  (compare a.day b.day).then ((compare a.start_time b.start_time).then
    ((optCmp compare a.end_time b.end_time).then ((listCmp compare a.action b.action).then
      ((listCmp compare a.issue b.issue).then (compare a.id b.id)))))

/-- Rust a <= b for the derived Activity order. -/
def Activity.le (a b : Activity) : Prop := a.cmp b ≠ .gt

/-- Rust a < b for the derived Activity order. -/
def Activity.lt (a b : Activity) : Prop := a.cmp b = .lt

instance Activity.decLe : DecidableRel Activity.le := fun a b =>
  inferInstanceAs (Decidable (a.cmp b ≠ .gt))

instance Activity.decLt : DecidableRel Activity.lt := fun a b =>
  inferInstanceAs (Decidable (a.cmp b = .lt))

/-- A comparator behaves like the cmp of a total order whose equivalence is
plain equality: this is what Rust's derive(Ord) produces for a structure of
lawfully ordered fields. -/
structure CmpLawful (c : α → α → Ordering) : Prop where
  eq_iff : ∀ a b, c a b = .eq ↔ a = b
  swap_cmp : ∀ a b, (c a b).swap = c b a
  le_trans : ∀ a b d, c a b ≠ .gt → c b d ≠ .gt → c a d ≠ .gt

theorem then_eq_eq {o p : Ordering} : o.then p = .eq ↔ o = .eq ∧ p = .eq := by
  cases o <;> simp [Ordering.then]

theorem then_eq_lt {o p : Ordering} : o.then p = .lt ↔ o = .lt ∨ (o = .eq ∧ p = .lt) := by
  cases o <;> simp [Ordering.then]

theorem then_ne_gt {o p : Ordering} : o.then p ≠ .gt ↔ o = .lt ∨ (o = .eq ∧ p ≠ .gt) := by
  cases o <;> simp [Ordering.then]

theorem swap_then (o p : Ordering) : (o.then p).swap = o.swap.then p.swap := by
  cases o <;> simp [Ordering.then, Ordering.swap]

theorem swap_eq_gt {o : Ordering} : o.swap = .gt ↔ o = .lt := by
  cases o <;> simp [Ordering.swap]

theorem swap_eq_lt {o : Ordering} : o.swap = .lt ↔ o = .gt := by
  cases o <;> simp [Ordering.swap]

theorem swap_eq_eq {o : Ordering} : o.swap = .eq ↔ o = .eq := by
  cases o <;> simp [Ordering.swap]

theorem CmpLawful.cmp_refl {c : α → α → Ordering} (hc : CmpLawful c) (a : α) : c a a = .eq :=
  (hc.eq_iff a a).2 rfl

theorem CmpLawful.lt_of_le_of_lt {c : α → α → Ordering} (hc : CmpLawful c) {a b d : α}
    (hab : c a b ≠ .gt) (hbd : c b d = .lt) : c a d = .lt := by
  have hle : c a d ≠ .gt := hc.le_trans a b d hab (by simp [hbd])
  cases h : c a d with
  | lt => rfl
  | gt => exact absurd h hle
  | eq =>
    rw [hc.eq_iff] at h
    subst h
    have hs := hc.swap_cmp a b
    rw [hbd] at hs
    exact absurd (swap_eq_lt.1 hs) hab

theorem CmpLawful.lt_of_lt_of_le {c : α → α → Ordering} (hc : CmpLawful c) {a b d : α}
    (hab : c a b = .lt) (hbd : c b d ≠ .gt) : c a d = .lt := by
  have hle : c a d ≠ .gt := hc.le_trans a b d (by simp [hab]) hbd
  cases h : c a d with
  | lt => rfl
  | gt => exact absurd h hle
  | eq =>
    rw [hc.eq_iff] at h
    subst h
    have hs := hc.swap_cmp a b
    rw [hab] at hs
    exact absurd hs.symm hbd

theorem CmpLawful.lt_trans {c : α → α → Ordering} (hc : CmpLawful c) {a b d : α}
    (hab : c a b = .lt) (hbd : c b d = .lt) : c a d = .lt :=
  hc.lt_of_lt_of_le hab (by simp [hbd])

theorem natCmp_lawful : CmpLawful (compare : Nat → Nat → Ordering) := by
  refine ⟨fun a b => Nat.compare_eq_eq, fun a b => ?_, fun a b d hab hbd => ?_⟩
  · rcases Nat.lt_trichotomy a b with h | h | h
    · rw [Nat.compare_eq_lt.2 h, Nat.compare_eq_gt.2 h]; rfl
    · subst h
      rw [Nat.compare_eq_eq.2 rfl]; rfl
    · rw [Nat.compare_eq_gt.2 h, Nat.compare_eq_lt.2 h]; rfl
  · intro h
    have h1 : ¬ b < a := fun hlt => hab (Nat.compare_eq_gt.2 hlt)
    have h2 : ¬ d < b := fun hlt => hbd (Nat.compare_eq_gt.2 hlt)
    have h3 : d < a := Nat.compare_eq_gt.1 h
    omega

theorem optCmp_lawful {c : α → α → Ordering} (hc : CmpLawful c) : CmpLawful (optCmp c) := by
  refine ⟨fun a b => ?_, fun a b => ?_, fun a b d hab hbd => ?_⟩
  · cases a <;> cases b <;> simp [optCmp, hc.eq_iff]
  · cases a <;> cases b <;> simp only [optCmp] <;> first | rfl | exact hc.swap_cmp _ _
  · cases a <;> cases b <;> cases d <;> simp_all [optCmp]
    exact hc.le_trans _ _ _ hab hbd

theorem listCmp_lawful {c : α → α → Ordering} (hc : CmpLawful c) : CmpLawful (listCmp c) := by
  constructor
  · intro a
    induction a with
    | nil => intro b; cases b <;> simp [listCmp]
    | cons x xs ih =>
      intro b
      cases b with
      | nil => simp [listCmp]
      | cons y ys => simp [listCmp, then_eq_eq, hc.eq_iff, ih]
  · intro a
    induction a with
    | nil => intro b; cases b <;> rfl
    | cons x xs ih =>
      intro b
      cases b with
      | nil => rfl
      | cons y ys => simp [listCmp, swap_then, hc.swap_cmp, ih]
  · intro a
    induction a with
    | nil => intro b d _ _; cases d <;> simp [listCmp]
    | cons x xs ih =>
      intro b d hab hbd
      cases b with
      | nil => simp [listCmp] at hab
      | cons y ys =>
        cases d with
        | nil => simp [listCmp] at hbd
        | cons z zs =>
          simp only [listCmp, then_ne_gt] at hab hbd ⊢
          rcases hab with h1 | ⟨h1, h1'⟩ <;> rcases hbd with h2 | ⟨h2, h2'⟩
          · exact Or.inl (hc.lt_trans h1 h2)
          · rw [hc.eq_iff] at h2; subst h2; exact Or.inl h1
          · rw [hc.eq_iff] at h1; subst h1; exact Or.inl h2
          · rw [hc.eq_iff] at h1; subst h1
            rw [hc.eq_iff] at h2; subst h2
            exact Or.inr ⟨hc.cmp_refl x, ih ys zs h1' h2'⟩

/-- Sequential field comparison, the shape derive(Ord) produces, on pairs. -/
def prodCmp (c1 : α → α → Ordering) (c2 : β → β → Ordering) (x y : α × β) : Ordering :=
  (c1 x.1 y.1).then (c2 x.2 y.2)

theorem prodCmp_lawful {c1 : α → α → Ordering} {c2 : β → β → Ordering}
    (h1 : CmpLawful c1) (h2 : CmpLawful c2) : CmpLawful (prodCmp c1 c2) := by
  constructor
  · intro a b
    simp [prodCmp, then_eq_eq, h1.eq_iff, h2.eq_iff, Prod.ext_iff]
  · intro a b
    simp [prodCmp, swap_then, h1.swap_cmp, h2.swap_cmp]
  · intro a b d hab hbd
    simp only [prodCmp, then_ne_gt] at hab hbd ⊢
    rcases hab with hx | ⟨hx, hx'⟩ <;> rcases hbd with hy | ⟨hy, hy'⟩
    · exact Or.inl (h1.lt_trans hx hy)
    · rw [h1.eq_iff] at hy; rw [← hy]; exact Or.inl hx
    · rw [h1.eq_iff] at hx; rw [hx]; exact Or.inl hy
    · rw [h1.eq_iff] at hx hy
      refine Or.inr ⟨?_, h2.le_trans _ _ _ hx' hy'⟩
      rw [hx, hy]
      exact h1.cmp_refl d.1

/-- Key tuple of an Activity in field declaration order. -/
def Activity.toTuple (a : Activity) :
    Date × Time × Option Time × Str × Str × ActivityId :=
  (a.day, a.start_time, a.end_time, a.action, a.issue, a.id)

/-- Comparator of key tuples: natural order on the numeric fields, None
before Some on the optional end time, byte-wise lexicographic on strings. -/
def tupleCmp :
    Date × Time × Option Time × Str × Str × ActivityId →
    Date × Time × Option Time × Str × Str × ActivityId → Ordering :=
  prodCmp compare (prodCmp compare (prodCmp (optCmp compare)
    (prodCmp (listCmp compare) (prodCmp (listCmp compare) compare))))

theorem Activity.cmp_eq_tupleCmp (a b : Activity) :
    a.cmp b = tupleCmp a.toTuple b.toTuple := rfl

theorem tupleCmp_lawful : CmpLawful tupleCmp :=
  prodCmp_lawful natCmp_lawful (prodCmp_lawful natCmp_lawful
    (prodCmp_lawful (optCmp_lawful natCmp_lawful)
      (prodCmp_lawful (listCmp_lawful natCmp_lawful)
        (prodCmp_lawful (listCmp_lawful natCmp_lawful) natCmp_lawful))))

theorem Activity.toTuple_inj {a b : Activity} (h : a.toTuple = b.toTuple) : a = b := by
  cases a
  cases b
  simp only [Activity.toTuple, Prod.mk.injEq] at h
  simp_all

theorem Activity.cmp_lawful : CmpLawful Activity.cmp := by
  constructor
  · intro a b
    rw [Activity.cmp_eq_tupleCmp, tupleCmp_lawful.eq_iff]
    exact ⟨Activity.toTuple_inj, fun h => by rw [h]⟩
  · intro a b
    rw [Activity.cmp_eq_tupleCmp, Activity.cmp_eq_tupleCmp, tupleCmp_lawful.swap_cmp]
  · intro a b d
    rw [Activity.cmp_eq_tupleCmp, Activity.cmp_eq_tupleCmp, Activity.cmp_eq_tupleCmp]
    exact tupleCmp_lawful.le_trans _ _ _

theorem Activity.le_refl (a : Activity) : a.le a := by
  simp [Activity.le, Activity.cmp_lawful.cmp_refl a]

theorem Activity.le_trans {a b d : Activity} (h1 : a.le b) (h2 : b.le d) : a.le d :=
  Activity.cmp_lawful.le_trans a b d h1 h2

theorem Activity.le_total (a b : Activity) : a.le b ∨ b.le a := by
  by_cases h : a.cmp b = .gt
  · right
    have hs := Activity.cmp_lawful.swap_cmp a b
    rw [h] at hs
    simp [Activity.le, ← hs, Ordering.swap]
  · exact Or.inl h

theorem Activity.le_antisymm {a b : Activity} (h1 : a.le b) (h2 : b.le a) : a = b := by
  rw [← Activity.cmp_lawful.eq_iff]
  have hs := Activity.cmp_lawful.swap_cmp a b
  cases h : a.cmp b with
  | eq => rfl
  | gt => exact absurd h h1
  | lt =>
    rw [h] at hs
    exact absurd hs.symm h2

instance : IsTotal Activity Activity.le := ⟨Activity.le_total⟩

instance : IsTrans Activity Activity.le := ⟨fun _ _ _ => Activity.le_trans⟩

/-- Rust Iterator::position over a list: index of the first element
satisfying the predicate. -/
def position (p : α → Bool) : List α → Option Nat
  | [] => none
  | x :: xs => if p x then some 0 else (position p xs).map (· + 1)

theorem position_eq_none {p : α → Bool} {v : List α} :
    position p v = none ↔ ∀ x ∈ v, p x = false := by
  induction v with
  | nil => simp [position]
  | cons x xs ih =>
    by_cases h : p x <;> simp [position, h, ih]

theorem position_eq_some {p : α → Bool} {v : List α} {i : Nat} (d : α)
    (h : position p v = some i) :
    i < v.length ∧ p (v.getD i d) = true ∧ ∀ j, j < i → p (v.getD j d) = false := by
  induction v generalizing i with
  | nil => simp [position] at h
  | cons x xs ih =>
    by_cases hx : p x
    · simp only [position, hx, if_pos] at h
      cases h
      simpa using hx
    · simp only [position, hx, if_neg, Bool.false_eq_true, not_false_iff, Option.map_eq_some'] at h
      obtain ⟨i', hi', rfl⟩ := h
      obtain ⟨h1, h2, h3⟩ := ih hi'
      refine ⟨by simpa using h1, by simpa using h2, ?_⟩
      intro j hj
      match j with
      | 0 => simpa using hx
      | j + 1 => simpa using h3 j (by omega)

/-- Fuelled loop of Rust slice binary_search_by
(the standard library routine called at
src/src/app/state/activity_vec.rs line 25): left and right delimit the
unsearched region; the region shrinks every iteration, so any fuel of at
least its initial width makes the embedding total. -/
def binarySearchGo (v : List Activity) (t : Activity) :
    Nat → Nat → Nat → Except Nat Nat
  | 0, left, _ => .error left
  | fuel + 1, left, right =>
    if left < right then
      match (v.getD (left + (right - left) / 2) default).cmp t with
      | .lt => binarySearchGo v t fuel (left + (right - left) / 2 + 1) right
      | .gt => binarySearchGo v t fuel left (left + (right - left) / 2)
      | .eq => .ok (left + (right - left) / 2)
    else
      .error left

/-- Rust self.v.binary_search(&t): Ok at an index of an equal element,
otherwise Err at the sorted insertion point. -/
def binarySearch (v : List Activity) (t : Activity) : Except Nat Nat :=
  binarySearchGo v t (v.length + 1) 0 v.length

/-- A day's activity vector; the core keeps it sorted in the derived
Activity order. -/
abbrev ActivityVec := List Activity

/-- Insertion step of ActivityVec::add
(src/src/app/state/activity_vec.rs lines 25-29): insert at the index binary
search returns, found or not. -/
def insertAtSearch (t : Activity) (v : ActivityVec) : ActivityVec :=
  v.insertIdx (match binarySearch v t with | .ok i => i | .error i => i) t

/-- ActivityVec::add (src/src/app/state/activity_vec.rs lines 19-31): remove
a previous element with the same id if one exists, then insert the new
element at the index binary search finds; the removed element is returned. -/
def ActivityVec.add (t : Activity) (v : ActivityVec) : Option Activity × ActivityVec :=
  match position (fun a => a.id == t.id) v with
  | some i => (some (v.getD i default), insertAtSearch t (v.eraseIdx i))
  | none => (none, insertAtSearch t v)

/-- ActivityVec::remove (src/src/app/state/activity_vec.rs lines 33-35):
remove and return the element at the index when it is in bounds. -/
def ActivityVec.remove (index : Nat) (v : ActivityVec) : Option Activity × ActivityVec :=
  if index < v.length then (some (v.getD index default), v.eraseIdx index) else (none, v)

/-- ActivityVec::find_by_id (src/src/app/state/activity_vec.rs lines 37-42):
index of the element the returned guard dereferences to. -/
def ActivityVec.findByIdIdx (i : ActivityId) (v : ActivityVec) : Option Nat :=
  position (fun a => a.id == i) v

/-- ActivityVec::remove_by_id (src/src/app/state/activity_vec.rs
lines 44-49): linear scan by id, remove and return on a hit. -/
def ActivityVec.removeById (i : ActivityId) (v : ActivityVec) : Option Activity × ActivityVec :=
  match position (fun a => a.id == i) v with
  | some j => (some (v.getD j default), v.eraseIdx j)
  | none => (none, v)

/-- Release of an ActivityVecGuard (impl Drop,
src/src/app/state/activity_vec.rs lines 77-81): the owning vector is
unconditionally re-sorted. sort_unstable is embedded as insertion sort: the
derived Activity order satisfies cmp = eq iff equality, so every comparison
sort returns the same sorted permutation. -/
def guardRelease (v : ActivityVec) : ActivityVec :=
  List.insertionSort Activity.le v

/-- Mutation of the guarded element through DerefMut
(src/src/app/state/activity_vec.rs lines 71-75): an arbitrary update of the
element at the guard's index. -/
def modifyAt (i : Nat) (f : Activity → Activity) (v : ActivityVec) : ActivityVec :=
  v.set i (f (v.getD i default))

/-- Modelled from the spec: ActivityVecGuard::delete is called by State::add
(src/src/app/state.rs line 51) but its definition is missing from the
sources; per section 4.2, State::add must "search all other days for the
same id, remove it there, and return that prior value", so the guard removes
its element from the owning vector and returns it. -/
def guardDelete (i : Nat) (v : ActivityVec) : Activity × ActivityVec :=
  (v.getD i default, v.eraseIdx i)

/-- ActivityVec::push of the superseded revision
(src/src/app/activity_vec.rs lines 21-30), the method History uses to re-add
activities: remove a previous element with the same id, append, then sort
(Rust's stable Vec::sort, embedded as insertion sort). -/
def ActivityVec.push (t : Activity) (v : ActivityVec) : Option Activity × ActivityVec :=
  match position (fun a => a.id == t.id) v with
  | some i => (some (v.getD i default), List.insertionSort Activity.le (v.eraseIdx i ++ [t]))
  | none => (none, List.insertionSort Activity.le (v ++ [t]))

/-- ActivityVec::replace of the superseded revision
(src/src/app/activity_vec.rs lines 36-38), the method History uses for Edit
actions: swap the element carrying the same id for the new value and return
the displaced element; the source unwraps the lookup, so a missing id is a
panic, embedded as none. The vector is not re-sorted. -/
def ActivityVec.replace (a : Activity) (v : ActivityVec) : Option (Activity × ActivityVec) :=
  match position (fun x => x.id == a.id) v with
  | some i => some (v.getD i default, v.set i a)
  | none => none

theorem Activity.cmp_gt_iff {a b : Activity} : a.cmp b = .gt ↔ b.cmp a = .lt := by
  rw [← Activity.cmp_lawful.swap_cmp a b]
  exact swap_eq_lt.symm

theorem Activity.le_of_cmp_lt {a b : Activity} (h : a.cmp b = .lt) : a.le b := by
  intro hgt
  rw [h] at hgt
  cases hgt

theorem sorted_getD_le {v : List Activity} (hs : List.Sorted Activity.le v)
    {i j : Nat} (hij : i < j) (hj : j < v.length) :
    Activity.le (v.getD i default) (v.getD j default) := by
  rw [List.getD_eq_getElem _ _ (by omega), List.getD_eq_getElem _ _ hj]
  exact List.pairwise_iff_getElem.1 hs i j (by omega) hj hij

/-- Loop invariant of the Rust binary search: everything left of the
unsearched region compares lt against the target, everything right of it
compares gt; at exit the two regions meet. -/
theorem binarySearchGo_spec {v : List Activity} {t : Activity}
    (hs : List.Sorted Activity.le v) :
    ∀ fuel left right, right ≤ v.length → right - left ≤ fuel → left ≤ right →
      (∀ j, j < left → (v.getD j default).cmp t = .lt) →
      (∀ j, right ≤ j → j < v.length → (v.getD j default).cmp t = .gt) →
      (match binarySearchGo v t fuel left right with
       | .ok i => i < v.length ∧ (v.getD i default).cmp t = .eq
       | .error i => i ≤ v.length ∧ (∀ j, j < i → (v.getD j default).cmp t = .lt) ∧
           ∀ j, i ≤ j → j < v.length → (v.getD j default).cmp t = .gt) := by
  intro fuel
  induction fuel with
  | zero =>
    intro left right hr hf hlr hlow hhigh
    simp only [binarySearchGo]
    have hleq : left = right := by omega
    exact ⟨by omega, hlow, fun j hj hjl => hhigh j (by omega) hjl⟩
  | succ fuel ih =>
    intro left right hr hf hlr hlow hhigh
    simp only [binarySearchGo]
    by_cases hcond : left < right
    · rw [if_pos hcond]
      have hmid_lt : left + (right - left) / 2 < right := by omega
      have hmid_len : left + (right - left) / 2 < v.length := by omega
      cases hcmp : (v.getD (left + (right - left) / 2) default).cmp t with
      | lt =>
        simp only [hcmp]
        refine ih (left + (right - left) / 2 + 1) right hr (by omega) (by omega) ?_ hhigh
        intro j hj
        rcases Nat.lt_or_ge j (left + (right - left) / 2) with h | h
        · exact Activity.cmp_lawful.lt_of_le_of_lt (sorted_getD_le hs h hmid_len) hcmp
        · have hje : j = left + (right - left) / 2 := by omega
          rw [hje]
          exact hcmp
      | gt =>
        simp only [hcmp]
        refine ih left (left + (right - left) / 2) (by omega) (by omega) (by omega) hlow ?_
        intro j hj hjlen
        rcases Nat.eq_or_lt_of_le hj with hje | h
        · rw [← hje]
          exact hcmp
        · rw [Activity.cmp_gt_iff] at hcmp ⊢
          exact Activity.cmp_lawful.lt_of_lt_of_le hcmp (sorted_getD_le hs h hjlen)
      | eq =>
        exact ⟨hmid_len, hcmp⟩
    · rw [if_neg hcond]
      have hleq : left = right := by omega
      exact ⟨by omega, hlow, fun j hj hjl => hhigh j (by omega) hjl⟩

/-- Contract of Rust binary_search on a sorted vector: Ok finds an equal
element, Err is an insertion point splitting the vector into a strictly
smaller prefix and strictly greater suffix. -/
theorem binarySearch_spec {v : List Activity} {t : Activity}
    (hs : List.Sorted Activity.le v) :
    (match binarySearch v t with
     | .ok i => i < v.length ∧ (v.getD i default).cmp t = .eq
     | .error i => i ≤ v.length ∧ (∀ j, j < i → (v.getD j default).cmp t = .lt) ∧
         ∀ j, i ≤ j → j < v.length → (v.getD j default).cmp t = .gt) :=
  binarySearchGo_spec hs (v.length + 1) 0 v.length (Nat.le_refl _) (by omega) (by omega)
    (fun j hj => absurd hj (Nat.not_lt_zero j))
    (fun j hj hjl => absurd hjl (by omega))

/-- Inserting t at an index below everything ≥ t and above everything ≤ t
keeps the vector sorted. -/
theorem sorted_insertIdx :
    ∀ (v : List Activity) (i : Nat) (t : Activity), i ≤ v.length →
      List.Sorted Activity.le v →
      (∀ j, j < i → Activity.le (v.getD j default) t) →
      (∀ j, i ≤ j → j < v.length → Activity.le t (v.getD j default)) →
      List.Sorted Activity.le (v.insertIdx i t)
  | v, 0, t, _hi, hs, _hlow, hhigh => by
    rw [List.insertIdx_zero]
    refine List.sorted_cons.2 ⟨?_, hs⟩
    intro b hb
    obtain ⟨n, hn, rfl⟩ := List.mem_iff_getElem.1 hb
    have := hhigh n (Nat.zero_le n) hn
    rwa [List.getD_eq_getElem _ _ hn] at this
  | [], i + 1, t, hi, _, _, _ => absurd hi (by simp)
  | x :: xs, i + 1, t, hi, hs, hlow, hhigh => by
    rw [List.insertIdx_succ_cons]
    obtain ⟨hx, hs'⟩ := List.sorted_cons.1 hs
    have hi' : i ≤ xs.length := by simpa using hi
    refine List.sorted_cons.2 ⟨?_, sorted_insertIdx xs i t hi' hs' ?_ ?_⟩
    · intro b hb
      rcases (List.mem_insertIdx hi').1 hb with rfl | hbv
      · have := hlow 0 (Nat.succ_pos i)
        simpa using this
      · exact hx b hbv
    · intro j hj
      have := hlow (j + 1) (by omega)
      simpa using this
    · intro j hj hjl
      have := hhigh (j + 1) (by omega) (by simpa using hjl)
      simpa using this

/-- Removing an element of a sorted vector keeps it sorted. -/
theorem sorted_eraseIdx {v : List Activity} (hs : List.Sorted Activity.le v) (i : Nat) :
    List.Sorted Activity.le (v.eraseIdx i) :=
  List.Pairwise.sublist (List.eraseIdx_sublist v i) hs

/-- Insertion at the binary search index keeps a sorted vector sorted. -/
theorem insertAtSearch_sorted (t : Activity) (v : ActivityVec)
    (hs : List.Sorted Activity.le v) :
    List.Sorted Activity.le (insertAtSearch t v) := by
  unfold insertAtSearch
  have hspec := binarySearch_spec (v := v) (t := t) hs
  cases hbs : binarySearch v t with
  | ok j =>
    rw [hbs] at hspec
    obtain ⟨hjl, hjeq⟩ := hspec
    have ht : v.getD j default = t := Activity.cmp_lawful.eq_iff _ _ |>.1 hjeq
    refine sorted_insertIdx _ j t (by omega) hs ?_ ?_
    · intro k hk
      have hle := sorted_getD_le hs hk hjl
      rwa [ht] at hle
    · intro k hk hkl
      rcases Nat.eq_or_lt_of_le hk with hje | hlt
      · rw [← hje, ht]
        exact Activity.le_refl t
      · have hle := sorted_getD_le hs hlt hkl
        rwa [ht] at hle
  | error j =>
    rw [hbs] at hspec
    obtain ⟨hjl, hlow, hhigh⟩ := hspec
    refine sorted_insertIdx _ j t hjl hs ?_ ?_
    · intro k hk
      exact Activity.le_of_cmp_lt (hlow k hk)
    · intro k hk hkl
      have := hhigh k hk hkl
      rw [Activity.cmp_gt_iff] at this
      exact Activity.le_of_cmp_lt this

/-- ActivityVec::add keeps the vector sorted in the derived Activity order:
the sort invariant of section 8 of the spec. -/
theorem ActivityVec.add_sorted (t : Activity) (v : ActivityVec)
    (hs : List.Sorted Activity.le v) :
    List.Sorted Activity.le (ActivityVec.add t v).2 := by
  unfold ActivityVec.add
  cases hp : position (fun a => a.id == t.id) v with
  | some i => exact insertAtSearch_sorted t _ (sorted_eraseIdx hs i)
  | none => exact insertAtSearch_sorted t v hs

/-- State's backing map BTreeMap(Reverse(Date), ActivityVec)
(src/src/app/state.rs line 13) as an association list in map iteration
order: strictly descending date. -/
abbrev StateMap := List (Date × ActivityVec)

/-- BTreeMap::get / get_mut: value stored under a date key. -/
def lookupDay (d : Date) : StateMap → Option ActivityVec
  | [] => none
  | (k, v) :: rest => if d = k then some v else lookupDay d rest

/-- BTreeMap insertion or in-place update under a date key, keeping the
descending-date iteration order. -/
def setDay (d : Date) (w : ActivityVec) : StateMap → StateMap
  | [] => [(d, w)]
  | (k, v) :: rest =>
    if k < d then (d, w) :: (k, v) :: rest
    else if d = k then (d, w) :: rest
    else (k, v) :: setDay d w rest

/-- BTreeMap::remove of a date key. -/
def eraseDay (d : Date) : StateMap → StateMap
  | [] => []
  | (k, v) :: rest => if d = k then rest else (k, v) :: eraseDay d rest

/-- All activities in the map, in iteration order. -/
def records : StateMap → List Activity
  | [] => []
  | (_, v) :: rest => v ++ records rest

/-- Total number of stored activities across all days. -/
def recordCount (st : StateMap) : Nat := (records st).length

/-- State::add's cross-day search
(src/src/app/state.rs lines 47-51): walk the day vectors in map order, and
in the first one holding the id delete that element through the guard and
return it. -/
def stateFindDelete (i : ActivityId) : StateMap → Option Activity × StateMap
  | [] => (none, [])
  | (d, v) :: rest =>
    match ActivityVec.findByIdIdx i v with
    | some j =>
      ((guardDelete j v).1, (d, (guardDelete j v).2) :: rest)
    | none =>
      let r := stateFindDelete i rest
      (r.1, (d, v) :: r.2)

/-- The self.0.entry(Reverse(a.day)).or_default().add(a) step of State::add
(src/src/app/state.rs line 52): run ActivityVec::add on the target day's
vector, created empty on demand. -/
def entryAdd (a : Activity) (st : StateMap) : StateMap :=
  setDay a.day (ActivityVec.add a ((lookupDay a.day st).getD [])).2 st

/-- State::add (src/src/app/state.rs lines 46-54): delete a previous record
with the same id from whichever day holds it, then add to the target day's
vector; the prior record is returned. The source does not prune the source
day if the cross-day delete empties it. -/
def State.add (a : Activity) (st : StateMap) : Option Activity × StateMap :=
  ((stateFindDelete a.id st).1, entryAdd a (stateFindDelete a.id st).2)

/-- State::remove (src/src/app/state.rs lines 16-26): remove by day and
position; a day left empty is pruned from the map. -/
def State.remove (date : Date) (index : Nat) (st : StateMap) : Option Activity × StateMap :=
  match lookupDay date st with
  | none => (none, st)
  | some acts =>
    if (ActivityVec.remove index acts).2.isEmpty then
      ((ActivityVec.remove index acts).1, eraseDay date st)
    else
      ((ActivityVec.remove index acts).1, setDay date (ActivityVec.remove index acts).2 st)

/-- State::remove_by_id (src/src/app/state.rs lines 28-38): remove by day
and id, with the same pruning rule. -/
def State.removeById (date : Date) (i : ActivityId) (st : StateMap) :
    Option Activity × StateMap :=
  match lookupDay date st with
  | none => (none, st)
  | some acts =>
    if (ActivityVec.removeById i acts).2.isEmpty then
      ((ActivityVec.removeById i acts).1, eraseDay date st)
    else
      ((ActivityVec.removeById i acts).1, setDay date (ActivityVec.removeById i acts).2 st)

/-- Undoable mutation descriptions (src/src/app/history.rs lines 8-12). -/
inductive Action where
  | DeleteActivity (a : Activity)
  | Edit (prev : Activity)
  | AddActivity (a : Activity)
deriving DecidableEq, Repr

/-- The undo/redo log (src/src/app/history.rs lines 14-18): two Vec stacks,
most recent action last. -/
structure History where
  past : List Action
  future : List Action
deriving DecidableEq, Repr

/-- History::frwd (src/src/app/history.rs lines 21-24): push onto past and
clear future. -/
def History.frwd (a : Action) (h : History) : History :=
  ⟨h.past ++ [a], []⟩

/-- The state.entry(a.day).or_default().push(a.clone()) step shared by
History::redo's AddActivity inverse and History::undo's DeleteActivity
inverse: push into the day's vector, creating the day on demand. -/
def entryPush (a : Activity) (st : StateMap) : StateMap :=
  setDay a.day (ActivityVec.push a ((lookupDay a.day st).getD [])).2 st

/-- History::redo (src/src/app/history.rs lines 26-45): pop the most recent
undone action and re-apply its forward effect. A failing expect or unwrap
(missing day or missing id) is a panic, embedded as none. -/
def History.redo (h : History) (st : StateMap) : Option (History × StateMap) :=
  match h.future.getLast? with
  | none => some (h, st)
  | some action =>
    match action with
    | .DeleteActivity a =>
      match lookupDay a.day st with
      | none => none
      | some v =>
        some (⟨h.past ++ [action], h.future.dropLast⟩,
          setDay a.day (ActivityVec.removeById a.id v).2 st)
    | .Edit prev =>
      match lookupDay prev.day st with
      | none => none
      | some v =>
        match ActivityVec.replace prev v with
        | none => none
        | some r =>
          some (⟨h.past ++ [action], h.future.dropLast⟩, setDay prev.day r.2 st)
    | .AddActivity a =>
      some (⟨h.past ++ [action], h.future.dropLast⟩, entryPush a st)

/-- History::undo (src/src/app/history.rs lines 47-68): pop the most recent
applied action and apply its inverse effect. A failing expect or unwrap is
a panic, embedded as none. Neither inverse prunes a day it empties. -/
def History.undo (h : History) (st : StateMap) : Option (History × StateMap) :=
  match h.past.getLast? with
  | none => some (h, st)
  | some action =>
    match action with
    | .DeleteActivity a =>
      some (⟨h.past.dropLast, h.future ++ [action]⟩, entryPush a st)
    | .Edit prev =>
      match lookupDay prev.day st with
      | none => none
      | some v =>
        match ActivityVec.replace prev v with
        | none => none
        | some r =>
          some (⟨h.past.dropLast, h.future ++ [action]⟩, setDay prev.day r.2 st)
    | .AddActivity a =>
      match lookupDay a.day st with
      | none => none
      | some v =>
        some (⟨h.past.dropLast, h.future ++ [action]⟩,
          setDay a.day (ActivityVec.removeById a.id v).2 st)

/-- The App facade (src/src/app.rs lines 41-52) restricted to the fields the
core commands touch; file paths, configuration, days off, pop-ups and the
stats flag only concern the excluded collaborators. nextId embeds the
process-wide monotonic AtomicUsize behind ActivityId::default(). -/
structure App where
  selected : Option (Date × Nat)
  activities : StateMap
  history : History
  clipboard : Option Activity
  nextId : Nat
deriving DecidableEq, Repr

/-- App::selected_id / selected_activity resolution
(src/src/app.rs lines 172-178). -/
def App.selected_activity (app : App) : Option Activity :=
  match app.selected with
  | none => none
  | some (date, index) => (lookupDay date app.activities).bind fun v => v[index]?

/-- First row of the flattened view: most recent day, index 0
(the self.activities.iter().next() fallback in App::next). -/
def firstRow (st : StateMap) : Option (Date × Nat) :=
  st.head?.map fun kv => (kv.1, 0)

/-- App::next (src/src/app.rs lines 108-133): advance the cursor one row,
moving to the next older day past the end of a day, wrapping to the first
row, and re-resolving to the first row when the selected date vanished
(the source resets selected and recurses once into the None branch).
range(Reverse(date)..) is the suffix of the map at keys dated at most
date. -/
def App.next (app : App) : App :=
  match app.selected with
  | some (date, index) =>
    match lookupDay date app.activities with
    | none => { app with selected := firstRow app.activities }
    | some acts =>
      if index + 1 ≥ acts.length then
        { app with selected :=
            match (app.activities.dropWhile fun kv => date < kv.1)[1]? with
            | some kv => some (kv.1, 0)
            | none => firstRow app.activities }
      else
        { app with selected := some (date, index + 1) }
  | none => { app with selected := firstRow app.activities }

/-- App::add_activity (src/src/app.rs lines 469-474): apply State::add and
record Edit when a prior record was displaced, AddActivity otherwise. -/
def App.add_activity (a : Activity) (app : App) : App :=
  match State.add a app.activities with
  | (some prev, st') =>
    { app with
      activities := st',
      history := History.frwd (.Edit prev) app.history }
  | (none, st') =>
    { app with
      activities := st',
      history := History.frwd (.AddActivity a) app.history }

/-- App::delete_activity (src/src/app.rs lines 438-448): remove the selected
row from State, remember it in the clipboard and record DeleteActivity; the
cursor is not touched. -/
def App.delete_activity (app : App) : App :=
  match app.selected with
  | none => app
  | some (date, index) =>
    match State.remove date index app.activities with
    | (some act, st') =>
      { app with
        activities := st',
        clipboard := some act,
        history := History.frwd (.DeleteActivity act) app.history }
    | (none, st') => { app with activities := st' }

/-- App::undo (src/src/app.rs lines 253-255). -/
def App.undo (app : App) : Option App :=
  (History.undo app.history app.activities).map fun r =>
    { app with history := r.1, activities := r.2 }

/-- App::redo (src/src/app.rs lines 257-259). -/
def App.redo (app : App) : Option App :=
  (History.redo app.history app.activities).map fun r =>
    { app with history := r.1, activities := r.2 }

/-- Minutes in a day: time::Time arithmetic wraps around midnight. -/
def timeAddWrap (t : Time) (d : Int) : Time :=
  (((t : Int) + d) % 1440).toNat

/-- The clipboard clone App::paste builds (src/src/app.rs lines 451-463):
the clone of the yanked activity with a fresh id from the monotonic counter
(ActivityId::default() returns the counter's value before bumping it),
retargeted after the selected activity: same day, starting when the
selection ends, keeping its own duration (Time arithmetic wraps around
midnight). -/
def pasteTarget (app : App) (s : Activity) : Activity :=
  let t0 : Activity := { s with id := app.nextId }
  let len : Option Int := t0.end_time.map fun e => (e : Int) - (t0.start_time : Int)
  let t1 : Activity :=
    match app.selected_activity with
    | some sel =>
      { t0 with
        start_time := (match sel.end_time with | some et => et | none => t0.start_time),
        day := sel.day }
    | none => t0
  { t1 with end_time := len.map fun l => timeAddWrap t1.start_time l }

/-- App::paste (src/src/app.rs lines 450-467): build the retargeted clone,
bump the id counter, and submit it through add_activity; none embeds
Err("clipboard is empty"). -/
def App.paste (app : App) : Option App :=
  match app.clipboard with
  | none => none
  | some s =>
    some (App.add_activity (pasteTarget app s) { app with nextId := app.nextId + 1 })

/-- Well-formed backing map: keys strictly descending, hence unique — the
BTreeMap representation invariant. -/
def WFState (st : StateMap) : Prop :=
  List.Pairwise (fun x y : Date × ActivityVec => y.1 < x.1) st

theorem setDay_mem {d : Date} {w : ActivityVec} {st : StateMap} {y : Date × ActivityVec}
    (h : y ∈ setDay d w st) : y = (d, w) ∨ y ∈ st := by
  induction st with
  | nil => simpa [setDay] using h
  | cons kv rest ih =>
    obtain ⟨k, v⟩ := kv
    by_cases h1 : k < d
    · simp only [setDay, if_pos h1, List.mem_cons] at h
      simpa using h
    · by_cases h2 : d = k
      · simp only [setDay, if_neg h1, if_pos h2, List.mem_cons] at h
        rcases h with h | h
        · exact Or.inl h
        · simp [h]
      · simp only [setDay, if_neg h1, if_neg h2, List.mem_cons] at h
        rcases h with h | h
        · simp [h]
        · rcases ih h with h' | h'
          · exact Or.inl h'
          · simp [h']

theorem eraseDay_mem {d : Date} {st : StateMap} {y : Date × ActivityVec}
    (h : y ∈ eraseDay d st) : y ∈ st := by
  induction st with
  | nil => simp [eraseDay] at h
  | cons kv rest ih =>
    obtain ⟨k, v⟩ := kv
    by_cases h1 : d = k
    · simp only [eraseDay, if_pos h1] at h
      exact List.mem_cons_of_mem _ h
    · simp only [eraseDay, if_neg h1, List.mem_cons] at h
      rcases h with h | h
      · simp [h]
      · exact List.mem_cons_of_mem _ (ih h)

theorem lookupDay_some_mem {d : Date} {st : StateMap} {v : ActivityVec}
    (h : lookupDay d st = some v) : (d, v) ∈ st := by
  induction st with
  | nil => simp [lookupDay] at h
  | cons kv rest ih =>
    obtain ⟨k, w⟩ := kv
    by_cases h1 : d = k
    · simp only [lookupDay, if_pos h1] at h
      cases h
      subst h1
      exact List.mem_cons_self _ _
    · simp only [lookupDay, if_neg h1] at h
      exact List.mem_cons_of_mem _ (ih h)

theorem WF_setDay {d : Date} {w : ActivityVec} {st : StateMap} (hwf : WFState st) :
    WFState (setDay d w st) := by
  induction st with
  | nil => simp [WFState, setDay]
  | cons kv rest ih =>
    obtain ⟨k, v⟩ := kv
    obtain ⟨hhead, htail⟩ := List.pairwise_cons.1 hwf
    by_cases h1 : k < d
    · simp only [setDay, if_pos h1]
      refine List.pairwise_cons.2 ⟨?_, hwf⟩
      intro y hy
      rcases List.mem_cons.1 hy with rfl | hy'
      · exact h1
      · exact lt_trans (hhead y hy') h1
    · by_cases h2 : d = k
      · subst h2
        simp only [setDay, if_neg h1, if_pos rfl]
        exact List.pairwise_cons.2 ⟨hhead, htail⟩
      · simp only [setDay, if_neg h1, if_neg h2]
        refine List.pairwise_cons.2 ⟨?_, ih htail⟩
        intro y hy
        rcases setDay_mem hy with rfl | hy'
        · exact show d < k from lt_of_le_of_ne (Nat.not_lt.1 h1) h2
        · exact hhead y hy'

theorem WF_eraseDay {d : Date} {st : StateMap} (hwf : WFState st) :
    WFState (eraseDay d st) := by
  induction st with
  | nil => simpa [eraseDay] using hwf
  | cons kv rest ih =>
    obtain ⟨k, v⟩ := kv
    obtain ⟨hhead, htail⟩ := List.pairwise_cons.1 hwf
    by_cases h1 : d = k
    · simpa [eraseDay, if_pos h1] using htail
    · simp only [eraseDay, if_neg h1]
      exact List.pairwise_cons.2 ⟨fun y hy => hhead y (eraseDay_mem hy), ih htail⟩

theorem lookupDay_setDay_self (d : Date) (w : ActivityVec) (st : StateMap) :
    lookupDay d (setDay d w st) = some w := by
  induction st with
  | nil => simp [setDay, lookupDay]
  | cons kv rest ih =>
    obtain ⟨k, v⟩ := kv
    by_cases h1 : k < d
    · simp [setDay, if_pos h1, lookupDay]
    · by_cases h2 : d = k
      · simp [setDay, if_neg h1, if_pos h2, lookupDay]
      · simp [setDay, if_neg h1, if_neg h2, lookupDay, h2, ih]

theorem lookupDay_setDay_ne {d e : Date} (hne : e ≠ d) (w : ActivityVec) (st : StateMap) :
    lookupDay e (setDay d w st) = lookupDay e st := by
  induction st with
  | nil => simp [setDay, lookupDay, hne]
  | cons kv rest ih =>
    obtain ⟨k, v⟩ := kv
    by_cases h1 : k < d
    · simp [setDay, if_pos h1, lookupDay, hne]
    · by_cases h2 : d = k
      · subst h2
        simp [setDay, if_neg h1, lookupDay, hne]
      · simp only [setDay, if_neg h1, if_neg h2, lookupDay]
        by_cases h3 : e = k
        · simp [h3]
        · simp [h3, ih]

theorem lookupDay_eraseDay_ne {d e : Date} (hne : e ≠ d) (st : StateMap) :
    lookupDay e (eraseDay d st) = lookupDay e st := by
  induction st with
  | nil => simp [eraseDay]
  | cons kv rest ih =>
    obtain ⟨k, v⟩ := kv
    by_cases h1 : d = k
    · subst h1
      simp [eraseDay, lookupDay, hne]
    · simp only [eraseDay, if_neg h1, lookupDay]
      by_cases h3 : e = k
      · simp [h3]
      · simp [h3, ih]

theorem lookupDay_eraseDay_self {d : Date} {st : StateMap} (hwf : WFState st) :
    lookupDay d (eraseDay d st) = none := by
  induction st with
  | nil => simp [eraseDay, lookupDay]
  | cons kv rest ih =>
    obtain ⟨k, v⟩ := kv
    obtain ⟨hhead, htail⟩ := List.pairwise_cons.1 hwf
    by_cases h1 : d = k
    · subst h1
      have herase : eraseDay d ((d, v) :: rest) = rest := by simp [eraseDay]
      rw [herase]
      cases hl : lookupDay d rest with
      | none => rfl
      | some v' =>
        have hlt := hhead _ (lookupDay_some_mem hl)
        simp at hlt
    · simp [eraseDay, if_neg h1, lookupDay, h1, ih htail]

theorem records_setDay_none {d : Date} {w : ActivityVec} {st : StateMap}
    (h : lookupDay d st = none) :
    ∃ pre post, records st = pre ++ post ∧ records (setDay d w st) = pre ++ (w ++ post) := by
  induction st with
  | nil => exact ⟨[], [], rfl, by simp [setDay, records]⟩
  | cons kv rest ih =>
    obtain ⟨k, v⟩ := kv
    simp only [lookupDay] at h
    by_cases h2 : d = k
    · simp [h2] at h
    · rw [if_neg h2] at h
      by_cases h1 : k < d
      · exact ⟨[], v ++ records rest, rfl, by simp [setDay, if_pos h1, records]⟩
      · obtain ⟨pre, post, hrec, hrec'⟩ := ih h
        refine ⟨v ++ pre, post, ?_, ?_⟩
        · simp [records, hrec]
        · simp [setDay, if_neg h1, if_neg h2, records, hrec']

theorem records_setDay_some {d : Date} {w v : ActivityVec} {st : StateMap}
    (hwf : WFState st) (h : lookupDay d st = some v) :
    ∃ pre post, records st = pre ++ (v ++ post) ∧ records (setDay d w st) = pre ++ (w ++ post) := by
  induction st with
  | nil => simp [lookupDay] at h
  | cons kv rest ih =>
    obtain ⟨k, v'⟩ := kv
    obtain ⟨hhead, htail⟩ := List.pairwise_cons.1 hwf
    simp only [lookupDay] at h
    by_cases h2 : d = k
    · rw [if_pos h2] at h
      cases h
      subst h2
      refine ⟨[], records rest, by simp [records], ?_⟩
      have h1 : ¬ d < d := lt_irrefl d
      simp [setDay, if_neg h1, records]
    · rw [if_neg h2] at h
      have hlt : d < k := hhead _ (lookupDay_some_mem h)
      have h1 : ¬ k < d := Nat.lt_asymm hlt
      obtain ⟨pre, post, hrec, hrec'⟩ := ih htail h
      refine ⟨v' ++ pre, post, ?_, ?_⟩
      · simp [records, hrec]
      · simp [setDay, if_neg h1, if_neg h2, records, hrec']

theorem binarySearchGo_le {v : List Activity} {t : Activity} :
    ∀ fuel left right, right ≤ v.length → left ≤ right →
      (match binarySearchGo v t fuel left right with
       | .ok i => i < v.length
       | .error i => i ≤ v.length) := by
  intro fuel
  induction fuel with
  | zero =>
    intro left right hr hlr
    simp only [binarySearchGo]
    omega
  | succ fuel ih =>
    intro left right hr hlr
    simp only [binarySearchGo]
    by_cases hcond : left < right
    · rw [if_pos hcond]
      cases hcmp : (v.getD (left + (right - left) / 2) default).cmp t with
      | lt => exact ih _ _ hr (by omega)
      | gt => exact ih _ _ (by omega) (by omega)
      | eq => exact show _ < v.length by omega
    · rw [if_neg hcond]
      exact show left ≤ v.length by omega

theorem binarySearch_le {v : List Activity} {t : Activity} :
    (match binarySearch v t with
     | .ok i => i < v.length
     | .error i => i ≤ v.length) :=
  binarySearchGo_le (v.length + 1) 0 v.length (Nat.le_refl _) (Nat.zero_le _)

/-- Index at which insertAtSearch inserts. -/
def searchIdx (t : Activity) (v : ActivityVec) : Nat :=
  match binarySearch v t with | .ok i => i | .error i => i

theorem searchIdx_le (t : Activity) (v : ActivityVec) : searchIdx t v ≤ v.length := by
  have h := binarySearch_le (v := v) (t := t)
  unfold searchIdx
  cases hbs : binarySearch v t with
  | ok i =>
    rw [hbs] at h
    exact Nat.le_of_lt h
  | error i =>
    rw [hbs] at h
    exact h

theorem insertAtSearch_eq (t : Activity) (v : ActivityVec) :
    insertAtSearch t v = v.insertIdx (searchIdx t v) t := rfl

theorem insertAtSearch_length (t : Activity) (v : ActivityVec) :
    (insertAtSearch t v).length = v.length + 1 := by
  rw [insertAtSearch_eq]
  exact List.length_insertIdx _ _ (searchIdx_le t v)

theorem insertAtSearch_mem_iff (t : Activity) (v : ActivityVec) (x : Activity) :
    x ∈ insertAtSearch t v ↔ x = t ∨ x ∈ v := by
  rw [insertAtSearch_eq]
  exact List.mem_insertIdx (searchIdx_le t v)

theorem beq_id_false {x t : Activity} (h : x.id ≠ t.id) : (x.id == t.id) = false := by
  simpa using h

/-- ActivityVec::add on a vector that does not hold the id: no previous
element, the length grows by one, the old elements and the new one are all
present. -/
theorem ActivityVec.add_fresh {t : Activity} {v : ActivityVec}
    (h : ∀ x ∈ v, x.id ≠ t.id) :
    (ActivityVec.add t v).1 = none ∧
    (ActivityVec.add t v).2.length = v.length + 1 ∧
    (∀ x ∈ v, x ∈ (ActivityVec.add t v).2) ∧ t ∈ (ActivityVec.add t v).2 := by
  have hpos : position (fun a => a.id == t.id) v = none :=
    position_eq_none.2 fun x hx => beq_id_false (h x hx)
  unfold ActivityVec.add
  rw [hpos]
  refine ⟨rfl, insertAtSearch_length t v, ?_, ?_⟩
  · intro x hx
    exact (insertAtSearch_mem_iff t v x).2 (Or.inr hx)
  · exact (insertAtSearch_mem_iff t v t).2 (Or.inl rfl)

/-- ActivityVec::add on a vector already holding the id: the first element
with the id is returned as previous and the length is unchanged. -/
theorem ActivityVec.add_found {t : Activity} {v : ActivityVec} {i : Nat}
    (hpos : position (fun a => a.id == t.id) v = some i) :
    (ActivityVec.add t v).1 = some (v.getD i default) ∧
    (ActivityVec.add t v).2.length = v.length := by
  obtain ⟨hi, _, _⟩ := position_eq_some default hpos
  unfold ActivityVec.add
  rw [hpos]
  refine ⟨rfl, ?_⟩
  rw [insertAtSearch_length]
  rw [List.length_eraseIdx, if_pos hi]
  omega

theorem beqNat_false {a b : Nat} (h : a ≠ b) : (a == b) = false := by
  simpa using h

/-- No two stored activities share an id: the identity uniqueness invariant
of section 8 of the spec. -/
def IdsUnique (st : StateMap) : Prop :=
  (records st).Pairwise fun a b => a.id ≠ b.id

theorem pairwise_ne_id_eq {l : List Activity}
    (hu : l.Pairwise fun a b => a.id ≠ b.id) {x y : Activity}
    (hx : x ∈ l) (hy : y ∈ l) (hid : x.id = y.id) : x = y := by
  by_contra hne
  have hsym : Symmetric fun a b : Activity => a.id ≠ b.id :=
    fun a b h h' => h h'.symm
  exact hu.forall hsym hx hy hne hid

theorem stateFindDelete_keys (i : ActivityId) (st : StateMap) :
    (stateFindDelete i st).2.map Prod.fst = st.map Prod.fst := by
  induction st with
  | nil => rfl
  | cons kv rest ih =>
    obtain ⟨d, v⟩ := kv
    simp only [stateFindDelete]
    cases ActivityVec.findByIdIdx i v with
    | some j => simp
    | none => simpa using ih

theorem WF_of_keys_eq {st st' : StateMap}
    (h : st'.map Prod.fst = st.map Prod.fst) (hwf : WFState st) : WFState st' := by
  unfold WFState at *
  have h1 : List.Pairwise (fun a b : Date => b < a) (st.map Prod.fst) :=
    List.pairwise_map.2 hwf
  rw [← h] at h1
  exact List.pairwise_map.1 h1

theorem stateFindDelete_fresh {i : ActivityId} {st : StateMap}
    (h : ∀ r ∈ records st, r.id ≠ i) :
    stateFindDelete i st = (none, st) := by
  induction st with
  | nil => rfl
  | cons kv rest ih =>
    obtain ⟨d, v⟩ := kv
    have hv : ActivityVec.findByIdIdx i v = none := by
      unfold ActivityVec.findByIdIdx
      exact position_eq_none.2 fun x hx =>
        beqNat_false (h x (by simp [records, List.mem_append, hx]))
    have hrest := ih fun r hr => h r (by simp [records, List.mem_append, hr])
    simp [stateFindDelete, hv, hrest]

/-- When some record carries the id, State::add's cross-day search removes
exactly the first one in map order from its day vector and returns it. -/
theorem stateFindDelete_found {i : ActivityId} {st : StateMap} {p : Activity}
    (hu : IdsUnique st) (hp : p ∈ records st) (hpi : p.id = i) :
    ∃ pre post, records st = pre ++ p :: post ∧
      (stateFindDelete i st).1 = some p ∧
      records (stateFindDelete i st).2 = pre ++ post := by
  induction st with
  | nil => simp [records] at hp
  | cons kv rest ih =>
    obtain ⟨d, v⟩ := kv
    have hrecs : records ((d, v) :: rest) = v ++ records rest := rfl
    cases hfind : ActivityVec.findByIdIdx i v with
    | some j =>
      obtain ⟨hj, hjid, _⟩ := position_eq_some default hfind
      have hvj_id : (v.getD j default).id = i := by simpa using hjid
      have hvj_mem : v.getD j default ∈ records ((d, v) :: rest) := by
        rw [List.getD_eq_getElem _ _ hj, hrecs]
        exact List.mem_append.2 (Or.inl (List.getElem_mem hj))
      have hpeq : v.getD j default = p :=
        pairwise_ne_id_eq hu hvj_mem hp (by rw [hvj_id, hpi])
      have hstep : stateFindDelete i ((d, v) :: rest)
          = (some (v.getD j default), (d, v.eraseIdx j) :: rest) := by
        simp [stateFindDelete, hfind, guardDelete]
      have hsplit : v = v.take j ++ v[j] :: v.drop (j + 1) := by
        conv_lhs => rw [← List.take_append_drop j v]
        rw [List.drop_eq_getElem_cons hj]
      refine ⟨v.take j, v.drop (j + 1) ++ records rest, ?_, ?_, ?_⟩
      · rw [hrecs]
        conv_lhs => rw [hsplit]
        have hgp : v[j] = p := by rw [← hpeq, List.getD_eq_getElem _ _ hj]
        rw [hgp]
        simp
      · rw [hstep, hpeq]
      · rw [hstep]
        show v.eraseIdx j ++ records rest = _
        rw [List.eraseIdx_eq_take_drop_succ, List.append_assoc]
    | none =>
      have hvni : ∀ x ∈ v, x.id ≠ i := by
        intro x hx
        have := position_eq_none.1 hfind x hx
        simpa using this
      have hpv : p ∉ v := fun hmem => hvni p hmem hpi
      have hp' : p ∈ records rest := by
        rw [hrecs] at hp
        rcases List.mem_append.1 hp with h' | h'
        · exact absurd h' hpv
        · exact h'
      have hu' : IdsUnique rest := by
        unfold IdsUnique at *
        rw [hrecs] at hu
        exact hu.sublist (List.sublist_append_right v (records rest))
      obtain ⟨pre, post, hrec, hfst, hsnd⟩ := ih hu' hp'
      have hstep : stateFindDelete i ((d, v) :: rest)
          = ((stateFindDelete i rest).1, (d, v) :: (stateFindDelete i rest).2) := by
        simp [stateFindDelete, hfind]
      refine ⟨v ++ pre, post, ?_, ?_, ?_⟩
      · rw [hrecs, hrec]
        simp
      · rw [hstep, hfst]
      · rw [hstep]
        show v ++ records (stateFindDelete i rest).2 = _
        rw [hsnd]
        simp

/-- The entry-add step on a state with no record of the same id: every old
record is kept, the new one is added, and the total grows by one. -/
theorem entryAdd_fresh {a : Activity} {st : StateMap} (hwf : WFState st)
    (hfresh : ∀ r ∈ records st, r.id ≠ a.id) :
    recordCount (entryAdd a st) = recordCount st + 1 ∧
    (∀ r ∈ records st, r ∈ records (entryAdd a st)) ∧
    a ∈ records (entryAdd a st) := by
  unfold entryAdd
  cases hl : lookupDay a.day st with
  | none =>
    obtain ⟨pre, post, hrec, hrec'⟩ :=
      records_setDay_none (w := (ActivityVec.add a ((none : Option ActivityVec).getD [])).2) hl
    obtain ⟨_, hlen, _, hmem⟩ := ActivityVec.add_fresh (t := a) (v := []) (by simp)
    simp only [Option.getD_none] at hrec'
    simp only [Option.getD_none]
    refine ⟨?_, ?_, ?_⟩
    · unfold recordCount
      rw [hrec', hrec]
      simp only [List.length_append]
      simp only [List.length_nil] at hlen
      omega
    · intro r hr
      rw [hrec] at hr
      rw [hrec']
      rcases List.mem_append.1 hr with h' | h' <;> simp [h']
    · rw [hrec']
      simp [hmem]
  | some v =>
    obtain ⟨pre, post, hrec, hrec'⟩ :=
      records_setDay_some (w := (ActivityVec.add a ((some v).getD [])).2) hwf hl
    simp only [Option.getD_some] at hrec'
    simp only [Option.getD_some]
    have hvsub : ∀ x ∈ v, x ∈ records st := by
      intro x hx
      rw [hrec]
      simp [hx]
    have hvfresh : ∀ x ∈ v, x.id ≠ a.id := fun x hx => hfresh x (hvsub x hx)
    obtain ⟨_, hlen, hkeep, hmem⟩ := ActivityVec.add_fresh (t := a) (v := v) hvfresh
    refine ⟨?_, ?_, ?_⟩
    · unfold recordCount
      rw [hrec', hrec]
      simp only [List.length_append]
      omega
    · intro r hr
      rw [hrec] at hr
      rw [hrec']
      rcases List.mem_append.1 hr with h' | h'
      · simp [h']
      · rcases List.mem_append.1 h' with h'' | h''
        · simp [hkeep r h'']
        · simp [h'']
    · rw [hrec']
      simp [hmem]

theorem ActivityVec.add_mem_sub {t x : Activity} {v : ActivityVec}
    (h : x ∈ (ActivityVec.add t v).2) : x = t ∨ x ∈ v := by
  unfold ActivityVec.add at h
  cases hp : position (fun a => a.id == t.id) v with
  | some i =>
    rw [hp] at h
    rcases (insertAtSearch_mem_iff t _ x).1 h with h' | h'
    · exact Or.inl h'
    · exact Or.inr ((List.eraseIdx_sublist v i).subset h')
  | none =>
    rw [hp] at h
    exact (insertAtSearch_mem_iff t v x).1 h

/-- Anything stored after the entry-add step was either the added activity
or was stored before. -/
theorem entryAdd_mem_sub {a r : Activity} {st : StateMap} (hwf : WFState st)
    (hr : r ∈ records (entryAdd a st)) : r = a ∨ r ∈ records st := by
  unfold entryAdd at hr
  cases hl : lookupDay a.day st with
  | none =>
    rw [hl] at hr
    obtain ⟨pre, post, hrec, hrec'⟩ :=
      records_setDay_none (w := (ActivityVec.add a ((none : Option ActivityVec).getD [])).2) hl
    rw [hrec'] at hr
    rcases List.mem_append.1 hr with h' | h'
    · exact Or.inr (by rw [hrec]; exact List.mem_append.2 (Or.inl h'))
    · rcases List.mem_append.1 h' with h'' | h''
      · rcases ActivityVec.add_mem_sub h'' with h3 | h3
        · exact Or.inl h3
        · simp at h3
      · exact Or.inr (by rw [hrec]; exact List.mem_append.2 (Or.inr h''))
  | some v =>
    rw [hl] at hr
    obtain ⟨pre, post, hrec, hrec'⟩ :=
      records_setDay_some (w := (ActivityVec.add a ((some v).getD [])).2) hwf hl
    rw [hrec'] at hr
    rcases List.mem_append.1 hr with h' | h'
    · exact Or.inr (by rw [hrec]; exact List.mem_append.2 (Or.inl h'))
    · rcases List.mem_append.1 h' with h'' | h''
      · rcases ActivityVec.add_mem_sub h'' with h3 | h3
        · exact Or.inl h3
        · refine Or.inr ?_
          rw [hrec]
          simp only [Option.getD_some] at h3
          exact List.mem_append.2 (Or.inr (List.mem_append.2 (Or.inl h3)))
      · exact Or.inr (by rw [hrec]; exact List.mem_append.2 (Or.inr (List.mem_append.2 (Or.inr h''))))

/-- State::add of an activity whose id is nowhere in the map: returns None,
keeps every record, adds the new one, and grows the total by one. -/
theorem State.add_fresh_spec {a : Activity} {st : StateMap} (hwf : WFState st)
    (hfresh : ∀ r ∈ records st, r.id ≠ a.id) :
    (State.add a st).1 = none ∧
    recordCount (State.add a st).2 = recordCount st + 1 ∧
    (∀ r ∈ records st, r ∈ records (State.add a st).2) ∧
    a ∈ records (State.add a st).2 := by
  have hsfd := stateFindDelete_fresh hfresh
  obtain ⟨hcount, hkeep, hmem⟩ := entryAdd_fresh hwf hfresh
  unfold State.add
  rw [hsfd]
  exact ⟨rfl, hcount, hkeep, hmem⟩

/-- State::add of an activity whose id is already stored (on any day, under
identity uniqueness): returns the prior record, keeps the total count, and
the resulting records are exactly the old ones with the prior record
removed and the new activity inserted. -/
theorem State.add_found_spec {a p : Activity} {st : StateMap} (hwf : WFState st)
    (hu : IdsUnique st) (hp : p ∈ records st) (hpi : p.id = a.id) :
    (State.add a st).1 = some p ∧
    recordCount (State.add a st).2 = recordCount st ∧
    (∀ r, r ∈ records (State.add a st).2 ↔ (r = a ∨ (r ∈ records st ∧ r ≠ p))) := by
  obtain ⟨pre, post, hrec, hfst, hsnd⟩ := stateFindDelete_found hu hp hpi
  have hwf2 : WFState (stateFindDelete a.id st).2 :=
    WF_of_keys_eq (stateFindDelete_keys a.id st) hwf
  have hfresh2 : ∀ r ∈ records (stateFindDelete a.id st).2, r.id ≠ a.id := by
    rw [hsnd]
    have hu' : (pre ++ p :: post).Pairwise fun a b => a.id ≠ b.id := by
      have := hu
      unfold IdsUnique at this
      rwa [hrec] at this
    have hmid := (List.pairwise_middle fun h h' => h h'.symm).1 hu'
    obtain ⟨hhd, _⟩ := List.pairwise_cons.1 hmid
    intro r hr hra
    exact hhd r hr (hpi.trans hra.symm)
  obtain ⟨hcount, hkeep, hmem⟩ := entryAdd_fresh hwf2 hfresh2
  have hbal : recordCount (stateFindDelete a.id st).2 + 1 = recordCount st := by
    unfold recordCount
    rw [hrec, hsnd]
    simp only [List.length_append, List.length_cons]
    omega
  refine ⟨hfst, by unfold State.add; rw [hcount, hbal], fun r => ⟨?_, ?_⟩⟩
  · intro hr
    have hr' : r = a ∨ r ∈ records (stateFindDelete a.id st).2 := by
      unfold State.add at hr
      exact entryAdd_mem_sub hwf2 hr
    rcases hr' with rfl | hr'
    · exact Or.inl rfl
    · refine Or.inr ⟨?_, ?_⟩
      · rw [hsnd] at hr'
        rw [hrec]
        rcases List.mem_append.1 hr' with h' | h'
        · exact List.mem_append.2 (Or.inl h')
        · exact List.mem_append.2 (Or.inr (List.mem_cons_of_mem _ h'))
      · intro hrp
        have hid := hfresh2 r hr'
        rw [hrp, hpi] at hid
        exact hid rfl
  · rintro (rfl | ⟨hr, hrp⟩)
    · unfold State.add
      exact hmem
    · have hr2 : r ∈ records (stateFindDelete a.id st).2 := by
        rw [hsnd]
        rw [hrec] at hr
        rcases List.mem_append.1 hr with h' | h'
        · exact List.mem_append.2 (Or.inl h')
        · rcases List.mem_cons.1 h' with rfl | h''
          · exact absurd rfl hrp
          · exact List.mem_append.2 (Or.inr h'')
      unfold State.add
      exact hkeep r hr2

/-- C3: for every well-formed State with unique ids and every activity a:
if no stored activity has a.id, State::add(a) returns None, the records
become exactly the old ones plus a, and the total record count across all
days grows by one; if some stored activity p has a.id (same or different
day), State::add(a) returns Some p, the records become exactly the old ones
with p removed and a inserted, and the total record count is unchanged. -/
theorem State.add_duality (a : Activity) (st : StateMap)
    (hwf : WFState st) (hu : IdsUnique st) :
    ((∀ r ∈ records st, r.id ≠ a.id) →
      (State.add a st).1 = none ∧
      recordCount (State.add a st).2 = recordCount st + 1 ∧
      (∀ r, r ∈ records (State.add a st).2 ↔ (r = a ∨ r ∈ records st))) ∧
    (∀ p ∈ records st, p.id = a.id →
      (State.add a st).1 = some p ∧
      recordCount (State.add a st).2 = recordCount st ∧
      (∀ r, r ∈ records (State.add a st).2 ↔ (r = a ∨ (r ∈ records st ∧ r ≠ p)))) := by
  constructor
  · intro hfresh
    obtain ⟨h1, h2, hkeep, hmem⟩ := State.add_fresh_spec hwf hfresh
    refine ⟨h1, h2, fun r => ⟨?_, ?_⟩⟩
    · intro hr
      have hsfd := stateFindDelete_fresh hfresh
      unfold State.add at hr
      rw [hsfd] at hr
      exact entryAdd_mem_sub hwf hr
    · rintro (rfl | hr)
      · exact hmem
      · exact hkeep r hr
  · intro p hp hpi
    exact State.add_found_spec hwf hu hp hpi

/-- C3 witness: a concrete run of both halves of State::add's add/edit
duality on the one-day State holding a single record with id 1: the fresh
add with id 2 keeps the old record and adds the new one; the cross-day add
with id 1 removes the prior id-1 record, inserts the new one, and returns
the prior record with the count unchanged. -/
theorem State.add_duality_witness :
    (WFState [(5, [⟨5, 60, none, [7], [], 1⟩])] ∧
      IdsUnique [(5, [⟨5, 60, none, [7], [], 1⟩])]) ∧
    ((State.add ⟨5, 90, none, [8], [], 2⟩ [(5, [⟨5, 60, none, [7], [], 1⟩])]).1 = none ∧
      recordCount (State.add ⟨5, 90, none, [8], [], 2⟩ [(5, [⟨5, 60, none, [7], [], 1⟩])]).2
        = recordCount [(5, [⟨5, 60, none, [7], [], 1⟩])] + 1 ∧
      (∀ r, r ∈ records (State.add ⟨5, 90, none, [8], [], 2⟩
          [(5, [⟨5, 60, none, [7], [], 1⟩])]).2 ↔
        (r = ⟨5, 90, none, [8], [], 2⟩ ∨ r ∈ records [(5, [⟨5, 60, none, [7], [], 1⟩])]))) ∧
    ((State.add ⟨6, 90, none, [8], [], 1⟩ [(5, [⟨5, 60, none, [7], [], 1⟩])]).1
        = some ⟨5, 60, none, [7], [], 1⟩ ∧
      recordCount (State.add ⟨6, 90, none, [8], [], 1⟩ [(5, [⟨5, 60, none, [7], [], 1⟩])]).2
        = recordCount [(5, [⟨5, 60, none, [7], [], 1⟩])] ∧
      (∀ r, r ∈ records (State.add ⟨6, 90, none, [8], [], 1⟩
          [(5, [⟨5, 60, none, [7], [], 1⟩])]).2 ↔
        (r = ⟨6, 90, none, [8], [], 1⟩ ∨
          (r ∈ records [(5, [⟨5, 60, none, [7], [], 1⟩])] ∧
            r ≠ ⟨5, 60, none, [7], [], 1⟩)))) := by
  refine ⟨⟨?_, ?_⟩, ?_, ?_⟩
  · unfold WFState
    decide
  · unfold IdsUnique
    decide
  · exact (State.add_duality ⟨5, 90, none, [8], [], 2⟩ [(5, [⟨5, 60, none, [7], [], 1⟩])]
      (by unfold WFState; decide) (by unfold IdsUnique; decide)).1 (by decide)
  · exact (State.add_duality ⟨6, 90, none, [8], [], 1⟩ [(5, [⟨5, 60, none, [7], [], 1⟩])]
      (by unfold WFState; decide) (by unfold IdsUnique; decide)).2
      ⟨5, 60, none, [7], [], 1⟩ (by decide) (by decide)

/-- A sequence of ActivityVec::add calls folded over an initial vector. -/
def addAll (v0 : ActivityVec) (seq : List Activity) : ActivityVec :=
  seq.foldl (fun v a => (ActivityVec.add a v).2) v0

theorem addAll_sorted : ∀ (seq : List Activity) (v0 : ActivityVec),
    List.Sorted Activity.le v0 → List.Sorted Activity.le (addAll v0 seq)
  | [], _v0, hs => hs
  | a :: seq, v0, hs => addAll_sorted seq _ (ActivityVec.add_sorted a v0 hs)

theorem addAll_mem : ∀ {seq : List Activity} {v0 : ActivityVec} {x : Activity},
    x ∈ addAll v0 seq → x ∈ v0 ∨ x ∈ seq := by
  intro seq
  induction seq with
  | nil => intro v0 x h; exact Or.inl h
  | cons a seq ih =>
    intro v0 x h
    rcases ih h with h' | h'
    · rcases ActivityVec.add_mem_sub h' with h'' | h''
      · simp [h'']
      · simp [h'']
    · simp [h']

/-- Within-day comparison key: the derived Activity order with the (equal)
day component dropped — (start_time, end_time, action, issue, id). -/
def Activity.cmp5 (a b : Activity) : Ordering :=
  (compare a.start_time b.start_time).then
    ((optCmp compare a.end_time b.end_time).then ((listCmp compare a.action b.action).then
      ((listCmp compare a.issue b.issue).then (compare a.id b.id))))

/-- Order by the within-day key. -/
def Activity.le5 (a b : Activity) : Prop := a.cmp5 b ≠ .gt

instance Activity.decLe5 : DecidableRel Activity.le5 := fun a b =>
  inferInstanceAs (Decidable (a.cmp5 b ≠ .gt))

theorem Activity.cmp_eq_cmp5 {a b : Activity} (hd : a.day = b.day) :
    a.cmp b = a.cmp5 b := by
  unfold Activity.cmp Activity.cmp5
  rw [hd, Nat.compare_eq_eq.2 rfl]
  rfl

/-- C6: for every sequence of ActivityVec::add operations over activities of
one calendar day, starting from a sorted vector of that day, the vector is
sorted after every call — both in the derived Activity order and by the
(start_time, end_time, action, issue, id) key; in particular adding starts
10:00 then 09:00 yields the 09:00 record first. -/
theorem activityVec_sort_invariant :
    (∀ (d : Date) (v0 : ActivityVec) (seq : List Activity),
      List.Sorted Activity.le v0 →
      (∀ a ∈ v0, a.day = d) → (∀ a ∈ seq, a.day = d) →
      List.Sorted Activity.le (addAll v0 seq) ∧
      List.Sorted Activity.le5 (addAll v0 seq)) ∧
    addAll [] [⟨5, 600, some 660, [97], [], 1⟩, ⟨5, 540, some 570, [98], [], 2⟩]
      = [⟨5, 540, some 570, [98], [], 2⟩, ⟨5, 600, some 660, [97], [], 1⟩] := by
  constructor
  · intro d v0 seq hs hv0 hseq
    have hsorted := addAll_sorted seq v0 hs
    refine ⟨hsorted, ?_⟩
    refine hsorted.imp_of_mem ?_
    intro a b ha hb hle
    have hda : a.day = d := by
      rcases addAll_mem ha with h' | h'
      · exact hv0 a h'
      · exact hseq a h'
    have hdb : b.day = d := by
      rcases addAll_mem hb with h' | h'
      · exact hv0 b h'
      · exact hseq b h'
    unfold Activity.le5
    rw [← Activity.cmp_eq_cmp5 (hda.trans hdb.symm)]
    exact hle
  · decide

/-- C6 witness: the sort invariant applied to the spec's example, two
same-day records added with start times 10:00 then 09:00. -/
theorem activityVec_sort_invariant_witness :
    (List.Sorted Activity.le [] ∧
      (∀ a ∈ ([] : ActivityVec), a.day = 5) ∧
      (∀ a ∈ [(⟨5, 600, some 660, [97], [], 1⟩ : Activity),
        ⟨5, 540, some 570, [98], [], 2⟩], a.day = 5)) ∧
    List.Sorted Activity.le5
      (addAll [] [⟨5, 600, some 660, [97], [], 1⟩, ⟨5, 540, some 570, [98], [], 2⟩]) :=
  ⟨⟨by decide, by decide, by decide⟩,
    (activityVec_sort_invariant.1 5 []
      [⟨5, 600, some 660, [97], [], 1⟩, ⟨5, 540, some 570, [98], [], 2⟩]
      (by decide) (by decide) (by decide)).2⟩

/-- C7: whenever find_by_id yields a guard (its index), releasing the guard
after an arbitrary mutation of the guarded element re-sorts the owning
vector: the result is sorted in the derived Activity order and is a
permutation of the mutated vector, whatever the mutation did. -/
theorem guard_release_restores_sort (v : ActivityVec) (i : ActivityId) (j : Nat)
    (f : Activity → Activity) (_hfind : ActivityVec.findByIdIdx i v = some j) :
    List.Sorted Activity.le (guardRelease (modifyAt j f v)) ∧
    (guardRelease (modifyAt j f v)).Perm (modifyAt j f v) :=
  ⟨List.sorted_insertionSort _ _, List.perm_insertionSort _ _⟩

/-- C7 witness: a guard found by id 2 on a vector left unsorted by the
mutation; release re-sorts it. -/
theorem guard_release_restores_sort_witness :
    ActivityVec.findByIdIdx 2
      [⟨5, 540, none, [98], [], 2⟩, ⟨5, 600, none, [97], [], 1⟩] = some 0 ∧
    (List.Sorted Activity.le (guardRelease (modifyAt 0 (fun a => { a with start_time := 700 })
        [⟨5, 540, none, [98], [], 2⟩, ⟨5, 600, none, [97], [], 1⟩])) ∧
      (guardRelease (modifyAt 0 (fun a => { a with start_time := 700 })
        [⟨5, 540, none, [98], [], 2⟩, ⟨5, 600, none, [97], [], 1⟩])).Perm
        (modifyAt 0 (fun a => { a with start_time := 700 })
          [⟨5, 540, none, [98], [], 2⟩, ⟨5, 600, none, [97], [], 1⟩])) :=
  ⟨by decide,
    guard_release_restores_sort
      [⟨5, 540, none, [98], [], 2⟩, ⟨5, 600, none, [97], [], 1⟩] 2 0
      (fun a => { a with start_time := 700 }) (by decide)⟩

/-- C8: History::frwd appends the action to past and leaves future empty,
so a redo immediately after any frwd — in particular after undos followed
by a fresh command — is a no-op: it changes neither the State nor the two
stacks. -/
theorem frwd_then_redo_noop (h : History) (a : Action) (st : StateMap) :
    (History.frwd a h).past = h.past ++ [a] ∧
    (History.frwd a h).future = [] ∧
    History.redo (History.frwd a h) st = some (History.frwd a h, st) :=
  ⟨rfl, rfl, rfl⟩

/-- Strict order on optional times with None first, as the spec words it. -/
def optLt : Option Time → Option Time → Prop
  | none, some _ => True
  | some a, some b => a < b
  | _, none => False

/-- The ordering the spec states for Activity: lexicographic on the tuple
(day, start_time, end_time, action, issue, id), with None before Some on
the optional end time and byte-lexicographic order on the strings. -/
def specLexLt (a b : Activity) : Prop :=
  a.day < b.day ∨ (a.day = b.day ∧
    (a.start_time < b.start_time ∨ (a.start_time = b.start_time ∧
      (optLt a.end_time b.end_time ∨ (a.end_time = b.end_time ∧
        (List.Lex (· < ·) a.action b.action ∨ (a.action = b.action ∧
          (List.Lex (· < ·) a.issue b.issue ∨ (a.issue = b.issue ∧
            a.id < b.id)))))))))

theorem optCmp_eq_lt_iff {x y : Option Time} :
    optCmp compare x y = .lt ↔ optLt x y := by
  cases x <;> cases y <;> simp [optCmp, optLt, Nat.compare_eq_lt]

theorem optCmp_eq_eq_iff {x y : Option Time} :
    optCmp compare x y = .eq ↔ x = y :=
  (optCmp_lawful natCmp_lawful).eq_iff x y

theorem listCmp_eq_eq_iff {x y : List Nat} :
    listCmp compare x y = .eq ↔ x = y :=
  (listCmp_lawful natCmp_lawful).eq_iff x y

theorem listCmp_eq_lt_iff_lex : ∀ {x y : List Nat},
    listCmp compare x y = .lt ↔ List.Lex (· < ·) x y := by
  intro x
  induction x with
  | nil =>
    intro y
    cases y with
    | nil =>
      constructor
      · intro h
        simp [listCmp] at h
      · intro h
        nomatch h
    | cons b ys =>
      simp only [listCmp]
      exact ⟨fun _ => List.Lex.nil, fun _ => trivial⟩
  | cons a xs ih =>
    intro y
    cases y with
    | nil =>
      constructor
      · intro h
        simp [listCmp] at h
      · intro h
        nomatch h
    | cons b ys =>
      simp only [listCmp, then_eq_lt, Nat.compare_eq_lt, Nat.compare_eq_eq]
      constructor
      · rintro (h | ⟨rfl, h⟩)
        · exact List.Lex.rel h
        · exact List.Lex.cons (ih.1 h)
      · intro h
        cases h with
        | rel h' => exact Or.inl h'
        | cons h' => exact Or.inr ⟨rfl, ih.2 h'⟩

/-- C9: for any two Activities, the derived strict order a < b holds exactly
when the key tuple (day, start_time, end_time, action, issue, id) of a is
lexicographically smaller than that of b. -/
theorem Activity.lt_iff_specLexLt (a b : Activity) : a.lt b ↔ specLexLt a b := by
  unfold Activity.lt Activity.cmp specLexLt
  simp only [then_eq_lt, Nat.compare_eq_lt, Nat.compare_eq_eq, optCmp_eq_lt_iff,
    optCmp_eq_eq_iff, listCmp_eq_lt_iff_lex, listCmp_eq_eq_iff]

/-- The byte string "build" of the spec's example scenario. -/
def bld : Str := [98, 117, 105, 108, 100]

/-- The example scenario's original record: id 1, 2024-01-10 (day 10),
09:00-12:00 (minutes 540-720). -/
def editPrev : Activity := ⟨10, 540, some 720, bld, [], 1⟩

/-- The example scenario's edited record: same id 1 and day, 13:00-17:00
(minutes 780-1020). -/
def editNew : Activity := ⟨10, 780, some 1020, bld, [], 1⟩

/-- An empty application session whose id counter is past every used id. -/
def appC2 : App := ⟨none, [], ⟨[], []⟩, none, 2⟩

/-- C2, run on the code at the spec's own scenario: add the 09:00-12:00
record, edit it to 13:00-17:00 (recording Edit with prev), undo, redo.
Undo does revert the record to prev; but redo replaces the record with prev
again — History::redo discards the value ActivityVec::replace hands back —
so after redo the record still reads 09:00-12:00 instead of the post-edit
13:00-17:00 value the spec requires. -/
theorem edit_undo_restores_but_redo_keeps_prev :
    lookupDay 10 (App.add_activity editNew (App.add_activity editPrev appC2)).activities
      = some [editNew] ∧
    ((App.add_activity editNew (App.add_activity editPrev appC2)).undo).map
      (fun x => lookupDay 10 x.activities) = some (some [editPrev]) ∧
    (((App.add_activity editNew (App.add_activity editPrev appC2)).undo).bind App.redo).map
      (fun x => lookupDay 10 x.activities) = some (some [editPrev]) ∧
    editPrev ≠ editNew := by
  decide

/-- A single activity on day 7 for the round-trip counterexample. -/
def addC1 : Activity := ⟨7, 540, none, [97], [], 0⟩

/-- An empty application session for the round-trip counterexample. -/
def appC1 : App := ⟨none, [], ⟨[], []⟩, none, 1⟩

/-- C1, run on the code: one command (an add, recorded through frwd) on the
empty State, then one undo. The undo removes the record but leaves the day
key mapping to an empty vector, so State does not return to its pre-command
snapshot (the empty map): the undo/redo round trip is broken by the code. -/
theorem undo_of_add_misses_pre_snapshot :
    (App.add_activity addC1 appC1).activities = [(7, [addC1])] ∧
    ((App.add_activity addC1 appC1).undo).map (fun x => x.activities)
      = some [(7, [])] ∧
    appC1.activities = [] ∧
    ([((7 : Date), ([] : ActivityVec))] : StateMap) ≠ ([] : StateMap) := by
  decide

/-- A single activity on day 9 for the day-pruning counterexample. -/
def addC4 : Activity := ⟨9, 300, none, [99], [], 3⟩

/-- An empty application session for the day-pruning counterexample. -/
def appC4 : App := ⟨none, [], ⟨[], []⟩, none, 4⟩

/-- C4, run on the code: after adding one activity on day 9 and undoing,
the map still contains the key for day 9 and it maps to the empty vector —
History::undo's AddActivity arm removes by id without pruning, violating
the day-pruning invariant after a public operation. -/
theorem undo_of_add_violates_day_pruning :
    ((App.add_activity addC4 appC4).undo).map
      (fun x => lookupDay 9 x.activities) = some (some []) := by
  decide

/-- Every stored day vector is non-empty: the day-pruning invariant State's
own operations maintain. -/
def NonemptyVecs (st : StateMap) : Prop := ∀ kv ∈ st, kv.2 ≠ ([] : ActivityVec)

/-- A cursor is valid for a map when, if present, it names an existing
activity, and when absent the map is empty. -/
def validCursor (st : StateMap) : Option (Date × Nat) → Prop
  | none => st = []
  | some (d, i) => ∃ v, lookupDay d st = some v ∧ i < v.length

theorem firstRow_valid {st : StateMap} (hne : NonemptyVecs st) :
    validCursor st (firstRow st) := by
  cases st with
  | nil => exact rfl
  | cons kv rest =>
    obtain ⟨d, v⟩ := kv
    show ∃ w, lookupDay d ((d, v) :: rest) = some w ∧ 0 < w.length
    exact ⟨v, by simp [lookupDay], List.length_pos.2 (hne (d, v) (List.mem_cons_self _ _))⟩

theorem lookupDay_of_mem_WF {st : StateMap} (hwf : WFState st) {d : Date} {v : ActivityVec}
    (hmem : (d, v) ∈ st) : lookupDay d st = some v := by
  induction st with
  | nil => simp at hmem
  | cons kv rest ih =>
    obtain ⟨k, w⟩ := kv
    obtain ⟨hhead, htail⟩ := List.pairwise_cons.1 hwf
    rcases List.mem_cons.1 hmem with heq | hmem'
    · injection heq with h1 h2
      subst h1
      subst h2
      simp [lookupDay]
    · have hlt : d < k := hhead _ hmem'
      have hne : d ≠ k := Nat.ne_of_lt hlt
      simp [lookupDay, hne, ih htail hmem']

theorem State.remove_preserves {date : Date} {index : Nat} {st : StateMap}
    (hwf : WFState st) (hne : NonemptyVecs st) :
    WFState (State.remove date index st).2 ∧ NonemptyVecs (State.remove date index st).2 := by
  unfold State.remove
  split
  · exact ⟨hwf, hne⟩
  · split
    · exact ⟨WF_eraseDay hwf, fun kv hkv => hne kv (eraseDay_mem hkv)⟩
    · rename_i acts _ hemp
      have hw : (ActivityVec.remove index acts).2 ≠ [] := fun h => hemp (by simp [h])
      refine ⟨WF_setDay hwf, ?_⟩
      intro kv hkv
      rcases setDay_mem hkv with rfl | hkv'
      · exact hw
      · exact hne kv hkv'

theorem App.delete_preserves (app : App)
    (hwf : WFState app.activities) (hne : NonemptyVecs app.activities) :
    WFState (App.delete_activity app).activities ∧
    NonemptyVecs (App.delete_activity app).activities := by
  unfold App.delete_activity
  split
  · exact ⟨hwf, hne⟩
  · rename_i date index hsel
    split
    · rename_i act st' heq
      have hpres := @State.remove_preserves date index app.activities hwf hne
      rw [heq] at hpres
      exact hpres
    · rename_i st' heq
      have hpres := @State.remove_preserves date index app.activities hwf hne
      rw [heq] at hpres
      exact hpres

theorem App.next_valid (app : App) (hwf : WFState app.activities)
    (hne : NonemptyVecs app.activities) :
    validCursor app.activities (App.next app).selected := by
  unfold App.next
  split
  · rename_i date index _
    split
    · exact firstRow_valid hne
    · rename_i acts hl
      split
      · split
        · rename_i kv hnth
          obtain ⟨d', v'⟩ := kv
          have hmem : (d', v') ∈ app.activities :=
            (List.dropWhile_sublist _).subset (List.getElem?_mem hnth)
          exact ⟨v', lookupDay_of_mem_WF hwf hmem, List.length_pos.2 (hne _ hmem)⟩
        · exact firstRow_valid hne
      · rename_i hend
        exact ⟨acts, hl, by omega⟩
  · exact firstRow_valid hne

/-- An activity and session for the stale-cursor counterexample: the
selected row is the only record. -/
def actC5 : Activity := ⟨5, 540, none, [100], [], 6⟩

/-- Session with one record selected at (day 5, index 0). -/
def appC5 : App := ⟨some (5, 0), [(5, [actC5])], ⟨[], []⟩, none, 7⟩

/-- C5 counterexample, run on the code: deleting the selected (and only)
row empties State, but the cursor stays at its old (day, index) coordinate
instead of moving to a valid adjacent row or to absent — a stale coordinate
that resolves to no activity. -/
theorem delete_leaves_stale_cursor :
    (App.delete_activity appC5).activities = [] ∧
    (App.delete_activity appC5).selected = some (5, 0) := by
  decide

/-- C5 (amended): delete_activity leaves the cursor untouched, so it can go
stale; the next cursor navigation (App::next) re-resolves it, after which
the cursor is valid for the post-delete State: when present it names an
existing activity, and it is absent only when State is empty — provided the
State was well-formed with non-empty day vectors before the delete. -/
theorem delete_then_next_valid_cursor (app : App)
    (hwf : WFState app.activities) (hne : NonemptyVecs app.activities) :
    validCursor (App.delete_activity app).activities
      (App.next (App.delete_activity app)).selected := by
  obtain ⟨hwf', hne'⟩ := App.delete_preserves app hwf hne
  exact App.next_valid _ hwf' hne'

/-- C5 witness: the amended statement applied to the one-record session of
the counterexample. -/
theorem delete_then_next_valid_cursor_witness :
    (WFState appC5.activities ∧ NonemptyVecs appC5.activities) ∧
    validCursor (App.delete_activity appC5).activities
      (App.next (App.delete_activity appC5)).selected :=
  ⟨⟨by unfold WFState appC5; decide, by unfold NonemptyVecs appC5; decide⟩,
    delete_then_next_valid_cursor appC5
      (by unfold WFState appC5; decide) (by unfold NonemptyVecs appC5; decide)⟩

theorem pasteTarget_id (app : App) (s : Activity) : (pasteTarget app s).id = app.nextId := by
  simp only [pasteTarget]
  cases app.selected_activity <;> rfl

/-- App::add_activity of an activity with a fresh id takes the AddActivity
branch: the state becomes State::add's result, the action is recorded, and
the other fields are untouched. -/
theorem App.add_activity_fresh {a : Activity} {app : App}
    (hwf : WFState app.activities)
    (hfresh : ∀ r ∈ records app.activities, r.id ≠ a.id) :
    (App.add_activity a app).activities = (State.add a app.activities).2 ∧
    (App.add_activity a app).history.past = app.history.past ++ [Action.AddActivity a] ∧
    (App.add_activity a app).clipboard = app.clipboard ∧
    (App.add_activity a app).selected = app.selected ∧
    (App.add_activity a app).nextId = app.nextId := by
  obtain ⟨hnone, _, _, _⟩ := State.add_fresh_spec hwf hfresh
  unfold App.add_activity
  split
  · rename_i prev st' heq
    rw [heq] at hnone
    simp at hnone
  · rename_i st' heq
    rw [heq]
    exact ⟨rfl, rfl, rfl, rfl, rfl⟩

/-- C10: with a non-empty clipboard, a well-formed State and every stored id
below the monotonic counter, App::paste succeeds; the pasted clone carries
the fresh counter id (so State::add displaces nothing), exactly one record
is added, AddActivity is recorded in History, every pre-existing record —
the yanked original included — is still stored, and the clipboard is
unchanged. -/
theorem App.paste_spec (app : App) (c : Activity)
    (hclip : app.clipboard = some c)
    (hwf : WFState app.activities)
    (hids : ∀ r ∈ records app.activities, r.id < app.nextId) :
    ∃ app', App.paste app = some app' ∧
      (pasteTarget app c).id = app.nextId ∧
      recordCount app'.activities = recordCount app.activities + 1 ∧
      app'.history.past = app.history.past ++ [Action.AddActivity (pasteTarget app c)] ∧
      (∀ r ∈ records app.activities, r ∈ records app'.activities) ∧
      pasteTarget app c ∈ records app'.activities ∧
      app'.clipboard = app.clipboard := by
  have hfresh : ∀ r ∈ records app.activities, r.id ≠ (pasteTarget app c).id := by
    intro r hr
    rw [pasteTarget_id]
    exact Nat.ne_of_lt (hids r hr)
  obtain ⟨hnone, hcount, hkeep, hmem⟩ :=
    @State.add_fresh_spec (pasteTarget app c) app.activities hwf hfresh
  have happ1 : ({ app with nextId := app.nextId + 1 } : App).activities = app.activities := rfl
  obtain ⟨hact, hpast, hclip', _, _⟩ :=
    @App.add_activity_fresh (pasteTarget app c) { app with nextId := app.nextId + 1 } hwf hfresh
  refine ⟨App.add_activity (pasteTarget app c) { app with nextId := app.nextId + 1 },
    ?_, pasteTarget_id app c, ?_, ?_, ?_, ?_, ?_⟩
  · unfold App.paste
    rw [hclip]
  · rw [hact]
    exact hcount
  · exact hpast
  · intro r hr
    rw [hact]
    exact hkeep r hr
  · rw [hact]
    exact hmem
  · exact hclip'

/-- The yanked record of the C10 witness session. -/
def yankedW : Activity := ⟨5, 540, some 600, [97], [], 1⟩

/-- A session whose clipboard holds the yanked record and whose counter is
past every stored id. -/
def appW : App := ⟨none, [(5, [yankedW])], ⟨[], []⟩, some yankedW, 2⟩

/-- C10 witness: paste on a concrete session with one stored, yanked
record. -/
theorem App.paste_spec_witness :
    (appW.clipboard = some yankedW ∧ WFState appW.activities ∧
      (∀ r ∈ records appW.activities, r.id < appW.nextId)) ∧
    (∃ app', App.paste appW = some app' ∧
      (pasteTarget appW yankedW).id = appW.nextId ∧
      recordCount app'.activities = recordCount appW.activities + 1 ∧
      app'.history.past = appW.history.past ++ [Action.AddActivity (pasteTarget appW yankedW)] ∧
      (∀ r ∈ records appW.activities, r ∈ records app'.activities) ∧
      pasteTarget appW yankedW ∈ records app'.activities ∧
      app'.clipboard = appW.clipboard) :=
  ⟨⟨by decide, by unfold WFState appW; decide, by decide⟩,
    App.paste_spec appW yankedW (by decide) (by unfold WFState appW; decide) (by decide)⟩

end Effort
